import Mathlib

/-!
Verification development for the wlcreator icon/launcher pipeline.

The Python source (wlcreator.py) is shallowly embedded here:
strings are `List Char`, subprocess results are explicit parameters
(exit code, raw stdout), exceptions become `Option`/`Except`, and the
floating-point score comparison `abs((w*h) ** 0.5 - ICON_SIZE)` is
embedded as an exact integer decision procedure `scoreLtB` that is
proved equivalent to the real-number comparison on `Real.sqrt`.
-/

namespace WLCreator

/-- The single-quote character (avoids quoting issues in literals). -/
def squote : Char := Char.ofNat 39

/-- `getSuffix` from the source: `file[-4:].upper()`. -/
def getSuffix (file : List Char) : List Char :=
  (file.drop (file.length - 4)).map Char.toUpper

/-- POSIX `os.path.basename`: everything after the last slash. -/
def basename (p : List Char) : List Char :=
  (p.reverse.takeWhile (fun c => c ≠ '/')).reverse

/-- POSIX `os.path.join` for two components. -/
def joinPath (a b : List Char) : List Char :=
  if b.head? = some '/' then b
  else if a = [] ∨ a.getLast? = some '/' then a ++ b
  else a ++ '/' :: b

/-- POSIX `os.path.dirname`: the part before the last slash,
with trailing slashes stripped unless the head is all slashes. -/
def dirname (p : List Char) : List Char :=
  let head := (p.reverse.dropWhile (fun c => c ≠ '/')).reverse
  if head ≠ [] ∧ head.any (fun c => c ≠ '/') then
    (head.reverse.dropWhile (fun c => c = '/')).reverse
  else head

/-- Decimal rendering of a natural number, as Python `str` does. -/
def natChars (n : Nat) : List Char := (Nat.repr n).toList

/-! ### The `escape` function (wlcreator.py lines 88-103) -/

/-- The characters illegal inside single quotes: `'`, tab, newline. -/
def sqIllegalChars : List Char := [squote, '\t', '\n']

/-- The reserved characters that force quoting at all. -/
def reservedChars : List Char := "\"\\ ><~|&;$*?#()`=".toList

def sqIllegal (c : Char) : Bool := sqIllegalChars.contains c

def reservedChar (c : Char) : Bool := reservedChars.contains c

/-- The character class of `re.sub('(["`$\\\\\t\n])', r'\\\1', text)`. -/
def dqSubChars : List Char := "\"`$\\\t\n".toList

/-- One step of the `re.sub`: prefix a backslash to class members. -/
def reSubChar (c : Char) : List Char :=
  if dqSubChars.contains c then ['\\', c] else [c]

/-- The `str.translate` table: newline to `n`, tab to `t`. -/
def translateTN (c : Char) : Char :=
  if c = '\n' then 'n' else if c = '\t' then 't' else c

/-- Body of the double-quote branch: `re.sub` then `translate`. -/
def dqBody (text : List Char) : List Char :=
  ((text.map reSubChar).flatten).map translateTN

/-- `escape(text, allowSingleQuote)` from the source. -/
def escape (text : List Char) (allowSingleQuote : Bool) : List Char :=
  let hasSQIllegal := text.any sqIllegal
  let hasReserved := text.any (fun c => !sqIllegal c && reservedChar c)
  if allowSingleQuote && !hasSQIllegal && hasReserved then
    squote :: text ++ [squote]
  else if hasSQIllegal || hasReserved then
    '"' :: dqBody text ++ ['"']
  else text

/-! ### Icon variants and `iconImages` (lines 49-55) -/

/-- One embedded image: `(index, width, height, bit-depth)`. -/
structure IconVariant where
  index : Nat
  width : Nat
  height : Nat
  bitDepth : Nat
deriving DecidableEq

/-- `bytes.split(b"\n")`: always at least one piece. -/
def splitLines : List Char → List (List Char)
  | [] => [[]]
  | c :: rest =>
    if c = '\n' then [] :: splitLines rest
    else
      match splitLines rest with
      | [] => [[c]]
      | l :: ls => (c :: l) :: ls

/-- Fuel-driven scan for `re.findall(b"--([^ =]*)(?:=([^ ]*))?", line)`:
a missing value group comes back as the empty string, as in Python. -/
def findTokensAux : Nat → List Char → List (List Char × List Char)
  | 0, _ => []
  | _ + 1, [] => []
  | fuel + 1, c1 :: rest =>
    match rest with
    | [] => []
    | c2 :: rest2 =>
      if c1 = '-' ∧ c2 = '-' then
        let key := rest2.takeWhile (fun c => ¬(c = ' ' ∨ c = '='))
        let r3 := rest2.drop key.length
        match r3 with
        | '=' :: r4 =>
          let v := r4.takeWhile (fun c => c ≠ ' ')
          (key, v) :: findTokensAux fuel (r4.drop v.length)
        | _ => (key, []) :: findTokensAux fuel r3
      else findTokensAux fuel rest

def findTokens (l : List Char) : List (List Char × List Char) :=
  findTokensAux l.length l

/-- Digit-string value, for Python `int(...)` on the matched bytes. -/
def digitsVal (s : List Char) : Option Nat :=
  if s ≠ [] ∧ s.all (fun c => c.isDigit) then
    some (s.foldl (fun a c => a * 10 + (c.toNat - 48)) 0)
  else none

/-- Python `int(...)` on a token (no spaces possible in the token). -/
def parseInt (s : List Char) : Option Int :=
  match s with
  | '-' :: rest => (digitsVal rest).map (fun n => -(n : Int))
  | '+' :: rest => (digitsVal rest).map (fun n => (n : Int))
  | _ => (digitsVal s).map (fun n => (n : Int))

/-- `dict(...)` lookup: the last binding of a key wins. -/
def dictFind (pairs : List (List Char × List Char)) (key : List Char) :
    Option (List Char) :=
  (pairs.reverse.find? (fun p => p.1 = key)).map (fun p => p.2)

/-- Natural-number field of one line's key-value record. -/
def fieldNat (pairs : List (List Char × List Char)) (key : List Char) :
    Option Nat := do
  let v ← dictFind pairs key
  match parseInt v with
  | some (Int.ofNat n) => some n
  | _ => none

/-- Parse one `icotool -l` output line into an `IconVariant`. -/
def parseLine (line : List Char) : Option IconVariant := do
  let pairs := findTokens line
  let i ← fieldNat pairs "index".toList
  let w ← fieldNat pairs "width".toList
  let h ← fieldNat pairs "height".toList
  let d ← fieldNat pairs "bit-depth".toList
  some ⟨i, w, h, d⟩

inductive ToolError where
  | nonzeroExit
  | parseFailure
deriving DecidableEq

/-- `if icons and icons[-1] == ord("\n"): icons = icons[:-1]`. -/
def stripTrailingNL (raw : List Char) : List Char :=
  if raw ≠ [] ∧ raw.getLast? = some '\n' then raw.dropLast else raw

/-- `iconImages` from the source, with the lister's exit code and raw
stdout made explicit; a raised exception is an `Except.error`. -/
def iconImages (exitCode : Int) (raw : List Char) :
    Except ToolError (List IconVariant) :=
  if exitCode ≠ 0 then .error .nonzeroExit
  else
    match (splitLines (stripTrailingNL raw)).mapM parseLine with
    | some l => .ok l
    | none => .error .parseFailure

/-! ### Best-variant selection (`extractIcoFile`, lines 636-647) -/

def ICON_SIZE : Nat := 64

/-- Integer test for `sqrt x + sqrt y < m` (x, y, m naturals). -/
def sqrtSumLtB (x y m : Nat) : Bool :=
  decide (0 < (m : Int) ^ 2 - x - y ∧
    4 * (x : Int) * y < ((m : Int) ^ 2 - x - y) ^ 2)

/-- Integer test for `m < sqrt x + sqrt y` (x, y, m naturals). -/
def sqrtSumGtB (x y m : Nat) : Bool :=
  decide ((m : Int) ^ 2 - x - y < 0 ∨
    ((m : Int) ^ 2 - x - y) ^ 2 < 4 * (x : Int) * y)

/-- Exact decision of `|sqrt x - crit| < |sqrt y - crit|` for natural
areas `x`, `y`: the comparison the Python `min` key performs. -/
def scoreLtB (crit x y : Nat) : Bool :=
  if y < x then sqrtSumLtB x y (2 * crit)
  else if x < y then sqrtSumGtB x y (2 * crit)
  else false

/-- Python `min(items, key=...)`: keep the current best, replace it
when a later item's key is strictly smaller. -/
def pyMinBy (lt : α → α → Bool) (best : α) : List α → α
  | [] => best
  | x :: xs => pyMinBy lt (if lt x best then x else best) xs

/-- The real-valued score `abs(sqrt(area) - crit)` on an area. -/
noncomputable def scoreR (crit a : Nat) : ℝ :=
  |Real.sqrt (a : ℝ) - (crit : ℝ)|

/-- The score of a variant: `abs(sqrt(width*height) - crit)`. -/
noncomputable def score (crit : Nat) (v : IconVariant) : ℝ :=
  scoreR crit (v.width * v.height)

/-- The selection step of `extractIcoFile`: `min` by score over all
variants, then `max` by bit depth over the variants sharing the
minimizer's width and height. Empty catalog gives `none`. -/
def selectBest (crit : Nat) (images : List IconVariant) :
    Option IconVariant :=
  match images with
  | [] => none
  | v :: vs =>
    let best := pyMinBy
      (fun a b => scoreLtB crit (a.width * a.height) (b.width * b.height))
      v vs
    match images.filter
        (fun i => i.width == best.width && i.height == best.height) with
    | [] => none
    | w :: ws => some (pyMinBy (fun a b => decide (b.bitDepth < a.bitDepth)) w ws)

/-! ### `iconExtract` (lines 57-80) -/

/-- The `.ico`-stripping step: `if getSuffix(ico) == ".ICO": ico = ico[:-4]`. -/
def stripIco (ico : List Char) : List Char :=
  if getSuffix ico = ".ICO".toList then ico.take (ico.length - 4) else ico

/-- The `_{index}_{width}x{height}x{bitDepth}.png` tail of the name. -/
def fmtTail (image : IconVariant) : List Char :=
  '_' :: natChars image.index ++ '_' :: natChars image.width ++
    'x' :: natChars image.height ++ 'x' :: natChars image.bitDepth ++
    ".png".toList

/-- Output path of `iconExtract(ico, image, path)`. -/
def iconExtract (ico : List Char) (image : IconVariant) (path : List Char) :
    List Char :=
  joinPath path (basename (stripIco ico)) ++ fmtTail image

/-- `extractIcoFile`: select the best variant for `ICON_SIZE`, then
extract it into the temporary directory. -/
def extractIcoFile (ico : List Char) (images : List IconVariant)
    (tmpDir : List Char) : Option (List Char) :=
  (selectBest ICON_SIZE images).map (fun v => iconExtract ico v tmpDir)

/-! ### `commandLine` (lines 600-626) -/

def xrandrFrag : List Char := " ; xrandr -s 0".toList

def gconfCmd : List Char :=
  ("gconftool -s /apps/compiz-1/plugins/workarounds/screen0/options/" ++
    "legacy_fullscreen -s false -t bool").toList

/-- The pre-command fragment (`prefix` local in the source). -/
def preFrag (legacyFS : Bool) : List Char :=
  if legacyFS then gconfCmd ++ " ; ".toList else []

/-- The post-command fragment (`suffix` local in the source). -/
def sufFrag (resolutionFix legacyFS : Bool) : List Char :=
  (if resolutionFix then xrandrFrag else []) ++
    (if legacyFS then " ; ".toList ++ gconfCmd else [])

/-- The `env WINEPREFIX=... wine ... exe ... params` part of the
command: everything except the optional `sh -c` wrapper. -/
def coreCmd (needsSh : Bool) (exePath wineCmd winePfxDefault pfxPath
    appParams : List Char) : List Char :=
  let exeDirectory := dirname exePath
  let exe0 :=
    if exeDirectory.length < exePath.length ∧
        exePath.take exeDirectory.length = exeDirectory ∧
        (exePath.drop exeDirectory.length).head? = some '/' then
      exePath.drop (exeDirectory.length + 1)
    else exePath
  let exe1 := wineCmd ++ ' ' :: escape exe0 needsSh
  let exe2 :=
    if winePfxDefault ≠ pfxPath then
      "env ".toList ++ escape ("WINEPREFIX=".toList ++ pfxPath) needsSh ++
        ' ' :: exe1
    else exe1
  if appParams ≠ [] then exe2 ++ ' ' :: appParams else exe2

/-- `commandLine` from the source, with the form state as arguments. -/
def commandLine (resolutionFix legacyFS : Bool) (exePath wineCmd
    winePfxDefault pfxPath appParams : List Char) : List Char :=
  let pre := preFrag legacyFS
  let suf := sufFrag resolutionFix legacyFS
  let needsSh := !pre.isEmpty || !suf.isEmpty
  if needsSh then
    "sh -c ".toList ++
      escape (pre ++ coreCmd needsSh exePath wineCmd winePfxDefault
        pfxPath appParams ++ suf) false
  else coreCmd needsSh exePath wineCmd winePfxDefault pfxPath appParams

/-! ### Destination-name normalization (`createLauncher`, lines 726-730) -/

/-- ASCII alphanumeric: what Python `c.isalnum() and ord(c) < 0x80`
accepts. -/
def asciiAlnum (c : Char) : Bool :=
  (48 ≤ c.toNat && c.toNat ≤ 57) || (97 ≤ c.toNat && c.toNat ≤ 122) ||
    (65 ≤ c.toNat && c.toNat ≤ 90)

/-- The per-character replacement of the normalization. -/
def normChar (c : Char) : Char :=
  if (asciiAlnum c && decide (c.toNat < 128)) || c = '_' || c = '.' then
    c.toLower
  else '-'

/-- `iconDestination`: NFKD-normalize (the normalizer and the combining
predicate are the Unicode tables, passed as parameters), drop combining
marks, then map each remaining character. -/
def iconDestination (nfkd : List Char → List Char) (combining : Char → Bool)
    (name : List Char) : List Char :=
  "wlcreator-".toList ++
    ((nfkd (basename name)).filter (fun c => !combining c)).map normChar

/-! ### Theme-tree construction (`createLauncher`, lines 720-744) -/

/-- The sort key order `(width, height, -bitDepth)` ascending. -/
def themeKeyLe (a b : IconVariant) : Prop :=
  a.width < b.width ∨ (a.width = b.width ∧
    (a.height < b.height ∨ (a.height = b.height ∧ b.bitDepth ≤ a.bitDepth)))

instance : DecidableRel themeKeyLe := fun a b => by
  unfold themeKeyLe; exact inferInstance

instance : IsTotal IconVariant themeKeyLe :=
  ⟨by intro a b; unfold themeKeyLe; omega⟩

instance : IsTrans IconVariant themeKeyLe :=
  ⟨by intro a b c h1 h2; unfold themeKeyLe at h1 h2 ⊢; omega⟩

/-- The destination `base/<w>x<h>/apps/<name>.png`. -/
def themeDest (base : List Char) (w h : Nat) (nm : List Char) : List Char :=
  joinPath (joinPath (joinPath base (natChars w ++ 'x' :: natChars h))
    "apps".toList) (nm ++ ".png".toList)

/-- `if not prev or image[WIDTH] != prev[WIDTH] or image[HEIGHT] != prev[HEIGHT]`. -/
def themeEmit (prev : Option IconVariant) (v : IconVariant) : Bool :=
  match prev with
  | none => true
  | some p => !(v.width == p.width) || !(v.height == p.height)

/-- The extraction loop: emit `(variant, destination)` for each variant
whose size differs from the immediately preceding one. -/
def themeLoop (base nm : List Char) :
    Option IconVariant → List IconVariant → List (IconVariant × List Char)
  | _, [] => []
  | prev, v :: rest =>
    if themeEmit prev v then
      (v, themeDest base v.width v.height nm) :: themeLoop base nm (some v) rest
    else themeLoop base nm (some v) rest

/-- Sort by `(width, height, -bitDepth)` (Python's stable sort), then
run the extraction loop. -/
def buildThemeTree (base nm : List Char) (images : List IconVariant) :
    List (IconVariant × List Char) :=
  themeLoop base nm none (List.insertionSort themeKeyLe images)

/-! ## Theorems -/

theorem any_sqIllegal_of_mem {text : List Char} {c : Char} (hc : c ∈ text)
    (h : sqIllegal c = true) : text.any sqIllegal = true :=
  List.any_eq_true.2 ⟨c, hc, h⟩

theorem escape_dq_branch_false (text : List Char)
    (h : (text.any sqIllegal || text.any (fun c => !sqIllegal c && reservedChar c)) = true) :
    escape text false = '"' :: dqBody text ++ ['"'] := by
  rcases Bool.or_eq_true_iff.1 h with h1 | h1 <;> simp [escape, h1]

theorem escape_dq_branch_true (text : List Char)
    (h : text.any sqIllegal = true) :
    escape text true = '"' :: dqBody text ++ ['"'] := by
  simp [escape, h]

theorem dqBody_char (text : List Char) :
    dqBody text = (text.map (fun c =>
      if c = '\t' then ['\\', 't']
      else if c = '\n' then ['\\', 'n']
      else if dqSubChars.contains c then ['\\', c]
      else [c])).flatten := by
  induction text with
  | nil => rfl
  | cons c cs ih =>
    simp only [dqBody, List.map_cons, List.flatten_cons, List.map_append] at *
    rw [ih]
    congr 1
    by_cases h1 : c = '\t'
    · subst h1; decide
    by_cases h2 : c = '\n'
    · subst h2; decide
    have ht : translateTN c = c := by simp [translateTN, h1, h2]
    have hb : translateTN '\\' = '\\' := by decide
    unfold reSubChar
    by_cases h3 : dqSubChars.contains c = true
    · rw [if_pos h3, if_neg h1, if_neg h2]
      simp [ht, hb]
    · rw [if_neg h3, if_neg h1, if_neg h2]
      simp [ht]

/-- C9: `escape` applied to the empty string returns the empty string
unchanged and unquoted, for both values of `allowSingleQuote`. -/
theorem escape_empty_unquoted : ∀ b : Bool, escape [] b = [] := by
  intro b; cases b <;> rfl

/-- C3: for any text containing a single quote, `escape` with
`allowSingleQuote = true` takes the double-quote branch, so it never
returns a single-quoted result. -/
theorem escape_squote_never_single_quoted (text : List Char)
    (h : squote ∈ text) :
    escape text true = '"' :: dqBody text ++ ['"'] ∧
    escape text true ≠ squote :: text ++ [squote] := by
  have h1 := escape_dq_branch_true text (any_sqIllegal_of_mem h (by decide))
  refine ⟨h1, ?_⟩
  rw [h1]
  intro he
  injection he with hc _
  exact absurd hc (by decide)

/-- C3 witness: `escape "it's" true` is the double-quoted result. -/
theorem escape_squote_never_single_quoted_w :
    squote ∈ ("it".toList ++ squote :: "s".toList) ∧
    (escape ("it".toList ++ squote :: "s".toList) true =
        '"' :: dqBody ("it".toList ++ squote :: "s".toList) ++ ['"'] ∧
      escape ("it".toList ++ squote :: "s".toList) true ≠
        squote :: ("it".toList ++ squote :: "s".toList) ++ [squote]) :=
  ⟨by decide, escape_squote_never_single_quoted _ (by decide)⟩

/-- C2 counterexample: a tab is not turned into a bare letter `t`
inside the double quotes; it is backslash-escaped first, so the result
on a single tab is `"\t"` (four characters), not `"t"`. -/
theorem escape_tab_keeps_backslash :
    escape ['\t'] false = ['"', '\\', 't', '"'] ∧
    escape ['\t'] false ≠ ['"', 't', '"'] := by
  constructor <;> decide

/-- C2 (amended): when the text has a single-quote-illegal or reserved
character and single-quoting is not chosen, `escape` wraps the text in
double quotes; inside, the characters `"`, backtick, `$`, `\`, tab and
newline are backslash-escaped, and each escaped tab/newline character
is then replaced by the letter `t`/`n` (so a tab becomes backslash
followed by `t`). All other characters pass through unchanged. -/
theorem escape_double_quote_spec (text : List Char)
    (h : (text.any sqIllegal || text.any (fun c => !sqIllegal c && reservedChar c)) = true) :
    escape text false = '"' :: dqBody text ++ ['"'] ∧
    dqBody text = (text.map (fun c =>
      if c = '\t' then ['\\', 't']
      else if c = '\n' then ['\\', 'n']
      else if dqSubChars.contains c then ['\\', c]
      else [c])).flatten :=
  ⟨escape_dq_branch_false text h, dqBody_char text⟩

/-- C2 witness: `escape "hello world" false` wraps in double quotes
with nothing escaped. -/
theorem escape_double_quote_spec_w :
    ("hello world".toList.any sqIllegal ||
      "hello world".toList.any (fun c => !sqIllegal c && reservedChar c)) = true ∧
    (escape "hello world".toList false =
        '"' :: dqBody "hello world".toList ++ ['"'] ∧
      dqBody "hello world".toList = ("hello world".toList.map (fun c =>
        if c = '\t' then ['\\', 't']
        else if c = '\n' then ['\\', 'n']
        else if dqSubChars.contains c then ['\\', c]
        else [c])).flatten) ∧
    escape "hello world".toList false = "\"hello world\"".toList :=
  ⟨by decide, escape_double_quote_spec _ (by decide), by decide⟩

/-- C7: the output path of `iconExtract` is a deterministic function of
the source filename (its basename after `.ico` stripping), the
variant's index, width, height and bit depth, and the destination
directory: equal inputs in that sense give equal output paths. -/
theorem iconExtract_deterministic (ico1 ico2 : List Char)
    (im1 im2 : IconVariant) (p1 p2 : List Char)
    (hp : p1 = p2)
    (hn : basename (stripIco ico1) = basename (stripIco ico2))
    (hi : im1.index = im2.index) (hw : im1.width = im2.width)
    (hh : im1.height = im2.height) (hd : im1.bitDepth = im2.bitDepth) :
    iconExtract ico1 im1 p1 = iconExtract ico2 im2 p2 := by
  unfold iconExtract fmtTail
  rw [hp, hn, hi, hw, hh, hd]

/-- C7 witness: the same variant extracted from two spellings of the
same `.ico` file into the same directory yields one output path. -/
theorem iconExtract_deterministic_w :
    "/tmp".toList = "/tmp".toList ∧
    basename (stripIco "/a/x.ico".toList) = basename (stripIco "/b/x.ICO".toList) ∧
    iconExtract "/a/x.ico".toList ⟨1, 16, 16, 4⟩ "/tmp".toList =
      iconExtract "/b/x.ICO".toList ⟨1, 16, 16, 4⟩ "/tmp".toList :=
  ⟨rfl, by decide,
    iconExtract_deterministic _ _ _ _ _ _ rfl (by decide) rfl rfl rfl rfl⟩

/-- C10: `iconExtract` strips the final four characters of the source
name exactly when they equal `.ico` case-insensitively (equal after
uppercasing); otherwise the full basename, extension included, prefixes
the `_<index>_<width>x<height>x<bitDepth>.png` output name. -/
theorem iconExtract_ico_strip (ico : List Char) (im : IconVariant)
    (p : List Char) :
    ((ico.drop (ico.length - 4)).map Char.toUpper =
        ".ico".toList.map Char.toUpper →
      iconExtract ico im p =
        joinPath p (basename (ico.take (ico.length - 4))) ++ fmtTail im) ∧
    ((ico.drop (ico.length - 4)).map Char.toUpper ≠
        ".ico".toList.map Char.toUpper →
      iconExtract ico im p = joinPath p (basename ico) ++ fmtTail im) := by
  have hform : ".ico".toList.map Char.toUpper = ".ICO".toList := by decide
  constructor
  · intro h
    have hs : getSuffix ico = ".ICO".toList := by
      unfold getSuffix; rw [h, hform]
    unfold iconExtract stripIco
    rw [if_pos hs]
  · intro h
    have hs : getSuffix ico ≠ ".ICO".toList := by
      unfold getSuffix; rw [← hform]; exact h
    unfold iconExtract stripIco
    rw [if_neg hs]

/-- C10 witness: a mixed-case `.IcO` suffix is stripped; an `.exe`
source keeps its full basename. -/
theorem iconExtract_ico_strip_w :
    iconExtract "/a/x.IcO".toList ⟨2, 32, 32, 8⟩ "/t".toList =
      joinPath "/t".toList
        (basename ("/a/x.IcO".toList.take ("/a/x.IcO".toList.length - 4))) ++
        fmtTail ⟨2, 32, 32, 8⟩ ∧
    iconExtract "/a/app.exe".toList ⟨2, 32, 32, 8⟩ "/t".toList =
      joinPath "/t".toList (basename "/a/app.exe".toList) ++
        fmtTail ⟨2, 32, 32, 8⟩ :=
  ⟨(iconExtract_ico_strip _ ⟨2, 32, 32, 8⟩ _).1 (by decide),
    (iconExtract_ico_strip _ ⟨2, 32, 32, 8⟩ _).2 (by decide)⟩

/-- C8: the destination-name normalization NFKD-normalizes, drops
combining marks, and then maps each remaining character: ASCII
alphanumerics are lowercased, underscore and period pass through
unchanged, every other character becomes a hyphen. -/
theorem iconDestination_spec (nfkd : List Char → List Char)
    (combining : Char → Bool) (name : List Char) :
    iconDestination nfkd combining name =
      "wlcreator-".toList ++
        ((nfkd (basename name)).filter (fun c => !combining c)).map normChar ∧
    ∀ c : Char,
      (asciiAlnum c = true → normChar c = c.toLower) ∧
      ((c = '_' ∨ c = '.') → normChar c = c) ∧
      (asciiAlnum c = false → c ≠ '_' → c ≠ '.' → normChar c = '-') := by
  refine ⟨rfl, fun c => ⟨?_, ?_, ?_⟩⟩
  · intro h
    have hlt : c.toNat < 128 := by
      revert h; unfold asciiAlnum; intro h; simp at h; omega
    simp [normChar, h, hlt]
  · rintro (rfl | rfl) <;> decide
  · intro h1 h2 h3
    simp [normChar, h1, h2, h3]

/-- C8 witness: the per-character map on representatives, and the whole
pipeline on a concrete name. -/
theorem iconDestination_spec_w :
    normChar 'A' = 'A'.toLower ∧ normChar '_' = '_' ∧ normChar '%' = '-' ∧
    iconDestination id (fun _ => false) "My App 2.0".toList =
      "wlcreator-my-app-2.0".toList :=
  ⟨((iconDestination_spec id (fun _ => false) []).2 'A').1 (by decide),
    ((iconDestination_spec id (fun _ => false) []).2 '_').2.1 (Or.inl rfl),
    ((iconDestination_spec id (fun _ => false) []).2 '%').2.2 (by decide)
      (by decide) (by decide),
    by decide⟩

/-- C5: `needsSh` is true iff at least one of the two toggle fragments
is non-empty, i.e. iff a toggle is set; exactly then the command is
wrapped as `sh -c ` plus one double-quoted argument holding the
`;`-joined pre/core/post string, and otherwise the core command stands
alone unwrapped. -/
theorem commandLine_needsSh (rf lfs : Bool)
    (exePath wineCmd winePfxDefault pfxPath appParams : List Char) :
    (!(preFrag lfs).isEmpty || !(sufFrag rf lfs).isEmpty) = (rf || lfs) ∧
    ((rf || lfs) = true →
      commandLine rf lfs exePath wineCmd winePfxDefault pfxPath appParams =
        "sh -c ".toList ++ '"' ::
          dqBody (preFrag lfs ++
            coreCmd true exePath wineCmd winePfxDefault pfxPath appParams ++
            sufFrag rf lfs) ++ ['"']) ∧
    ((rf || lfs) = false →
      commandLine rf lfs exePath wineCmd winePfxDefault pfxPath appParams =
        coreCmd false exePath wineCmd winePfxDefault pfxPath appParams) := by
  have hfrag : (!(preFrag lfs).isEmpty || !(sufFrag rf lfs).isEmpty) = (rf || lfs) := by
    cases rf <;> cases lfs <;> decide
  refine ⟨hfrag, ?_, ?_⟩
  · intro h
    have hmem : ' ' ∈ preFrag lfs ++
        coreCmd true exePath wineCmd winePfxDefault pfxPath appParams ++
        sufFrag rf lfs := by
      rcases Bool.or_eq_true_iff.1 h with h1 | h1
      · subst h1
        refine List.mem_append.2 (Or.inr ?_)
        cases lfs <;> decide
      · subst h1
        refine List.mem_append.2 (Or.inl (List.mem_append.2 (Or.inl ?_)))
        cases rf <;> decide
    have hres : ((preFrag lfs ++
        coreCmd true exePath wineCmd winePfxDefault pfxPath appParams ++
        sufFrag rf lfs).any sqIllegal ||
        (preFrag lfs ++
        coreCmd true exePath wineCmd winePfxDefault pfxPath appParams ++
        sufFrag rf lfs).any (fun c => !sqIllegal c && reservedChar c)) = true :=
      Bool.or_eq_true_iff.2 (Or.inr (List.any_eq_true.2 ⟨' ', hmem, by decide⟩))
    have hesc := escape_dq_branch_false _ hres
    simp only [commandLine]
    rw [hfrag, h, if_pos rfl, hesc]
    simp
  · intro h
    have h1 : rf = false ∧ lfs = false := by
      cases rf <;> cases lfs <;> simp_all
    obtain ⟨hrf, hlfs⟩ := h1
    subst hrf; subst hlfs
    simp [commandLine, preFrag, sufFrag]

/-- C5 witness: with only the resolution toggle set the command is
`sh -c` plus one quoted argument; with no toggle it is unwrapped. -/
theorem commandLine_needsSh_w :
    (!(preFrag false).isEmpty || !(sufFrag true false).isEmpty) = (true || false) ∧
    commandLine true false "/g/a.exe".toList "wine".toList "/h/.wine".toList
      "/h/.wine".toList [] =
      "sh -c ".toList ++ '"' :: dqBody (preFrag false ++
        coreCmd true "/g/a.exe".toList "wine".toList "/h/.wine".toList
          "/h/.wine".toList [] ++ sufFrag true false) ++ ['"'] ∧
    commandLine false false "/g/a.exe".toList "wine".toList "/h/.wine".toList
      "/h/.wine".toList [] =
      coreCmd false "/g/a.exe".toList "wine".toList "/h/.wine".toList
        "/h/.wine".toList [] ∧
    commandLine true false "/g/a.exe".toList "wine".toList "/h/.wine".toList
      "/h/.wine".toList [] = "sh -c \"wine a.exe ; xrandr -s 0\"".toList :=
  ⟨(commandLine_needsSh true false "/g/a.exe".toList "wine".toList
      "/h/.wine".toList "/h/.wine".toList []).1,
   (commandLine_needsSh true false "/g/a.exe".toList "wine".toList
      "/h/.wine".toList "/h/.wine".toList []).2.1 rfl,
   (commandLine_needsSh false false "/g/a.exe".toList "wine".toList
      "/h/.wine".toList "/h/.wine".toList []).2.2 rfl,
   by decide⟩

theorem splitLines_ne_nil (s : List Char) : splitLines s ≠ [] := by
  induction s with
  | nil => simp [splitLines]
  | cons c rest ih =>
    unfold splitLines
    by_cases h : c = '\n'
    · simp [h]
    · rw [if_neg h]
      cases hs : splitLines rest <;> simp

theorem mapM_option_length {α β : Type} (f : α → Option β) :
    ∀ (l : List α) (r : List β), l.mapM f = some r → r.length = l.length := by
  intro l
  induction l with
  | nil =>
    intro r h
    rw [List.mapM_nil] at h
    simp at h
    subst h
    rfl
  | cons a t ih =>
    intro r h
    rw [List.mapM_cons] at h
    cases hf : f a with
    | none => rw [hf] at h; simp at h
    | some b =>
      rw [hf] at h
      cases ht : t.mapM f with
      | none => rw [ht] at h; simp at h
      | some xs =>
        rw [ht] at h
        simp at h
        rw [← h]
        simp [ih xs ht]

/-- C6: `iconImages` strips a single trailing newline before splitting
into lines; it fails hard when the lister exits non-zero or when no
line parses; and a successful run always yields a non-empty catalog,
never an empty one. -/
theorem iconImages_spec (raw : List Char) (e : Int) (l : List IconVariant) :
    (raw.getLast? ≠ some '\n' →
      iconImages 0 (raw ++ ['\n']) = iconImages 0 raw) ∧
    (e ≠ 0 → iconImages e raw = .error .nonzeroExit) ∧
    ((∀ line ∈ splitLines (stripTrailingNL raw), parseLine line = none) →
      iconImages 0 raw = .error .parseFailure) ∧
    (iconImages e raw = .ok l → l ≠ []) := by
  refine ⟨?_, ?_, ?_, ?_⟩
  · intro h
    have h1 : stripTrailingNL (raw ++ ['\n']) = raw := by
      unfold stripTrailingNL
      rw [if_pos ⟨by simp, List.getLast?_concat raw⟩]
      exact List.dropLast_concat
    have h2 : stripTrailingNL raw = raw := by
      unfold stripTrailingNL
      rw [if_neg]
      rintro ⟨-, hc⟩
      exact h hc
    unfold iconImages
    rw [h1, h2]
  · intro h
    unfold iconImages
    rw [if_pos h]
  · intro h
    unfold iconImages
    rw [if_neg (by simp)]
    obtain ⟨x, xs, hx⟩ :=
      List.exists_cons_of_ne_nil (splitLines_ne_nil (stripTrailingNL raw))
    rw [hx]
    have hpx : parseLine x = none := h x (hx ▸ List.mem_cons_self x xs)
    rw [List.mapM_cons, hpx]
    rfl
  · intro h
    unfold iconImages at h
    by_cases he : e ≠ 0
    · rw [if_pos he] at h
      simp at h
    · rw [if_neg he] at h
      cases hm : (splitLines (stripTrailingNL raw)).mapM parseLine with
      | none => rw [hm] at h; simp at h
      | some r =>
        rw [hm] at h
        simp at h
        have hlen := mapM_option_length parseLine _ r hm
        have hne := splitLines_ne_nil (stripTrailingNL raw)
        intro hl
        rw [h, hl] at hlen
        exact hne (List.length_eq_zero.1 hlen.symm)

/-- C6 witness: a parseable line gives a one-element catalog surviving
newline stripping; exit code 1 and an unparseable output fail hard. -/
theorem iconImages_spec_w :
    iconImages 0 ("--index=0 --width=16 --height=16 --bit-depth=24".toList ++ ['\n']) =
      iconImages 0 "--index=0 --width=16 --height=16 --bit-depth=24".toList ∧
    iconImages 1 "--index=0 --width=16 --height=16 --bit-depth=24".toList =
      .error .nonzeroExit ∧
    iconImages 0 "nonsense".toList = .error .parseFailure ∧
    ([⟨0, 16, 16, 24⟩] : List IconVariant) ≠ [] :=
  ⟨(iconImages_spec "--index=0 --width=16 --height=16 --bit-depth=24".toList 1 []).1
      (by decide),
   (iconImages_spec "--index=0 --width=16 --height=16 --bit-depth=24".toList 1 []).2.1
      (by decide),
   (iconImages_spec "nonsense".toList 0 []).2.2.1 (by decide),
   (iconImages_spec "--index=0 --width=16 --height=16 --bit-depth=24".toList 0
      [⟨0, 16, 16, 24⟩]).2.2.2 (by rfl)⟩

theorem sqrtSumLtB_iff (x y m : Nat) :
    sqrtSumLtB x y m = true ↔
      Real.sqrt (x : ℝ) + Real.sqrt (y : ℝ) < (m : ℝ) := by
  unfold sqrtSumLtB
  rw [decide_eq_true_iff]
  have ha0 : 0 ≤ Real.sqrt (x : ℝ) := Real.sqrt_nonneg _
  have hb0 : 0 ≤ Real.sqrt (y : ℝ) := Real.sqrt_nonneg _
  have ha2 : Real.sqrt (x : ℝ) ^ 2 = (x : ℝ) := Real.sq_sqrt (by positivity)
  have hb2 : Real.sqrt (y : ℝ) ^ 2 = (y : ℝ) := Real.sq_sqrt (by positivity)
  have hab0 : 0 ≤ Real.sqrt (x : ℝ) * Real.sqrt (y : ℝ) := mul_nonneg ha0 hb0
  have hm0 : (0 : ℝ) ≤ (m : ℝ) := by positivity
  constructor
  · rintro ⟨h1, h2⟩
    have hKpos : (0 : ℝ) < (m : ℝ) ^ 2 - x - y := by exact_mod_cast h1
    have h2R : 4 * (x : ℝ) * y < ((m : ℝ) ^ 2 - x - y) ^ 2 := by
      exact_mod_cast h2
    have habx : (Real.sqrt (x : ℝ) * Real.sqrt (y : ℝ)) ^ 2 = (x : ℝ) * y := by
      rw [mul_pow, ha2, hb2]
    have h2ab : 2 * (Real.sqrt (x : ℝ) * Real.sqrt (y : ℝ)) <
        (m : ℝ) ^ 2 - x - y := by
      nlinarith [habx, hab0, hKpos, h2R]
    have hs : (Real.sqrt (x : ℝ) + Real.sqrt (y : ℝ)) ^ 2 < (m : ℝ) ^ 2 := by
      nlinarith [ha2, hb2, h2ab]
    nlinarith [hs, ha0, hb0, hm0]
  · intro h
    have hs : (Real.sqrt (x : ℝ) + Real.sqrt (y : ℝ)) ^ 2 < (m : ℝ) ^ 2 :=
      pow_lt_pow_left₀ h (by linarith) (by norm_num)
    have habx : (Real.sqrt (x : ℝ) * Real.sqrt (y : ℝ)) ^ 2 = (x : ℝ) * y := by
      rw [mul_pow, ha2, hb2]
    have hK : 2 * (Real.sqrt (x : ℝ) * Real.sqrt (y : ℝ)) <
        (m : ℝ) ^ 2 - x - y := by
      nlinarith [hs, ha2, hb2]
    constructor
    · have hKR : (0 : ℝ) < (m : ℝ) ^ 2 - x - y := by linarith
      exact_mod_cast hKR
    · have h4 : 4 * (x : ℝ) * y < ((m : ℝ) ^ 2 - x - y) ^ 2 := by
        nlinarith [habx, hab0, hK]
      exact_mod_cast h4

theorem sqrtSumGtB_iff (x y m : Nat) :
    sqrtSumGtB x y m = true ↔
      (m : ℝ) < Real.sqrt (x : ℝ) + Real.sqrt (y : ℝ) := by
  unfold sqrtSumGtB
  rw [decide_eq_true_iff]
  have ha0 : 0 ≤ Real.sqrt (x : ℝ) := Real.sqrt_nonneg _
  have hb0 : 0 ≤ Real.sqrt (y : ℝ) := Real.sqrt_nonneg _
  have ha2 : Real.sqrt (x : ℝ) ^ 2 = (x : ℝ) := Real.sq_sqrt (by positivity)
  have hb2 : Real.sqrt (y : ℝ) ^ 2 = (y : ℝ) := Real.sq_sqrt (by positivity)
  have hab0 : 0 ≤ Real.sqrt (x : ℝ) * Real.sqrt (y : ℝ) := mul_nonneg ha0 hb0
  have hm0 : (0 : ℝ) ≤ (m : ℝ) := by positivity
  have habx : (Real.sqrt (x : ℝ) * Real.sqrt (y : ℝ)) ^ 2 = (x : ℝ) * y := by
    rw [mul_pow, ha2, hb2]
  constructor
  · rintro (h1 | h1)
    · have h1R : (m : ℝ) ^ 2 < (x : ℝ) + y := by
        have h1I : (m : Int) ^ 2 < (x : Int) + y := by linarith
        exact_mod_cast h1I
      nlinarith [ha2, hb2, hab0, hm0, ha0, hb0, h1R]
    · have h1R : ((m : ℝ) ^ 2 - x - y) ^ 2 < 4 * (x : ℝ) * y := by
        exact_mod_cast h1
      have h2abK : (m : ℝ) ^ 2 - x - y <
          2 * (Real.sqrt (x : ℝ) * Real.sqrt (y : ℝ)) := by
        nlinarith [habx, hab0, h1R]
      nlinarith [ha2, hb2, h2abK, hm0, ha0, hb0]
  · intro h
    have hs : (m : ℝ) ^ 2 < (Real.sqrt (x : ℝ) + Real.sqrt (y : ℝ)) ^ 2 :=
      pow_lt_pow_left₀ h hm0 (by norm_num)
    have hK2ab : (m : ℝ) ^ 2 - x - y <
        2 * (Real.sqrt (x : ℝ) * Real.sqrt (y : ℝ)) := by
      nlinarith [hs, ha2, hb2]
    by_cases hK : (m : Int) ^ 2 - x - y < 0
    · exact Or.inl hK
    · right
      push_neg at hK
      have hKR : (0 : ℝ) ≤ (m : ℝ) ^ 2 - x - y := by exact_mod_cast hK
      have h4 : ((m : ℝ) ^ 2 - x - y) ^ 2 < 4 * (x : ℝ) * y := by
        nlinarith [hK2ab, hKR, habx, hab0]
      exact_mod_cast h4

theorem scoreLtB_iff (crit x y : Nat) :
    scoreLtB crit x y = true ↔ scoreR crit x < scoreR crit y := by
  unfold scoreLtB scoreR
  split_ifs with h1 h2
  · rw [sqrtSumLtB_iff]
    push_cast
    have hba : Real.sqrt (y : ℝ) < Real.sqrt (x : ℝ) :=
      Real.sqrt_lt_sqrt (by positivity) (by exact_mod_cast h1)
    constructor
    · intro h
      rw [← sq_lt_sq]
      nlinarith [hba, h]
    · intro h
      rw [← sq_lt_sq] at h
      nlinarith [hba, h]
  · rw [sqrtSumGtB_iff]
    push_cast
    have hba : Real.sqrt (x : ℝ) < Real.sqrt (y : ℝ) :=
      Real.sqrt_lt_sqrt (by positivity) (by exact_mod_cast h2)
    constructor
    · intro h
      rw [← sq_lt_sq]
      nlinarith [hba, h]
    · intro h
      rw [← sq_lt_sq] at h
      nlinarith [hba, h]
  · have hxy : x = y := by omega
    subst hxy
    simp

theorem pyMinBy_spec {α : Type} {β : Type} [LinearOrder β] (f : α → β)
    (lt : α → α → Bool) (hlt : ∀ a b, lt a b = true ↔ f a < f b) :
    ∀ (l : List α) (best : α),
      (pyMinBy lt best l = best ∨ pyMinBy lt best l ∈ l) ∧
      (∀ u, (u = best ∨ u ∈ l) → f (pyMinBy lt best l) ≤ f u) := by
  intro l
  induction l with
  | nil =>
    intro best
    refine ⟨Or.inl rfl, ?_⟩
    rintro u (rfl | h)
    · exact le_refl _
    · exact absurd h (List.not_mem_nil _)
  | cons x xs ih =>
    intro best
    by_cases hx : lt x best = true
    · have heq : pyMinBy lt best (x :: xs) = pyMinBy lt x xs := by
        simp only [pyMinBy, if_pos hx]
      obtain ⟨hm, hmin⟩ := ih x
      rw [heq]
      refine ⟨?_, ?_⟩
      · rcases hm with h | h
        · exact Or.inr (by rw [h]; exact List.mem_cons_self x xs)
        · exact Or.inr (List.mem_cons_of_mem x h)
      · rintro u (rfl | hu)
        · exact le_trans (hmin x (Or.inl rfl)) (le_of_lt ((hlt x u).1 hx))
        · rcases List.mem_cons.1 hu with rfl | hu2
          · exact hmin u (Or.inl rfl)
          · exact hmin u (Or.inr hu2)
    · have heq : pyMinBy lt best (x :: xs) = pyMinBy lt best xs := by
        simp only [pyMinBy, if_neg hx]
      obtain ⟨hm, hmin⟩ := ih best
      rw [heq]
      have hbx : f best ≤ f x :=
        not_lt.1 (fun hcon => hx ((hlt x best).2 hcon))
      refine ⟨?_, ?_⟩
      · rcases hm with h | h
        · exact Or.inl h
        · exact Or.inr (List.mem_cons_of_mem x h)
      · rintro u (rfl | hu)
        · exact hmin u (Or.inl rfl)
        · rcases List.mem_cons.1 hu with rfl | hu2
          · exact le_trans (hmin best (Or.inl rfl)) hbx
          · exact hmin u (Or.inr hu2)

/-- C1 (amended): for every non-empty catalog and criterion, the
selection step returns a member whose score
`|sqrt(width*height) - criterion|` is minimal over the whole catalog,
and among the members sharing the returned variant's width and height
it has maximal bit depth. (An equal-score member of a different
width/height may still have a greater bit depth.) -/
theorem selectBest_spec (crit : Nat) (images : List IconVariant)
    (hne : images ≠ []) :
    ∃ v, selectBest crit images = some v ∧ v ∈ images ∧
      (∀ u ∈ images, score crit v ≤ score crit u) ∧
      (∀ u ∈ images, u.width = v.width → u.height = v.height →
        u.bitDepth ≤ v.bitDepth) := by
  obtain ⟨v0, vs0, rfl⟩ := List.exists_cons_of_ne_nil hne
  have hltS : ∀ a b : IconVariant,
      (scoreLtB crit (a.width * a.height) (b.width * b.height) = true) ↔
      score crit a < score crit b := fun a b => scoreLtB_iff crit _ _
  obtain ⟨hbm, hbmin⟩ := pyMinBy_spec (score crit)
    (fun a b => scoreLtB crit (a.width * a.height) (b.width * b.height))
    hltS vs0 v0
  set best := pyMinBy
    (fun a b => scoreLtB crit (a.width * a.height) (b.width * b.height))
    v0 vs0 with hbdef
  have hmemB : best ∈ v0 :: vs0 := by
    rcases hbm with h | h
    · rw [h]; exact List.mem_cons_self _ _
    · exact List.mem_cons_of_mem _ h
  have hmemF : best ∈ (v0 :: vs0).filter
      (fun i => i.width == best.width && i.height == best.height) :=
    List.mem_filter.2 ⟨hmemB, by simp⟩
  obtain ⟨w0, ws, hfeq⟩ : ∃ w0 ws, (v0 :: vs0).filter
      (fun i => i.width == best.width && i.height == best.height) =
      w0 :: ws := by
    cases hf : (v0 :: vs0).filter
        (fun i => i.width == best.width && i.height == best.height) with
    | nil => rw [hf] at hmemF; exact absurd hmemF (List.not_mem_nil _)
    | cons w ws => exact ⟨w, ws, rfl⟩
  have hdlt : ∀ a b : IconVariant, (decide (b.bitDepth < a.bitDepth) = true) ↔
      ((fun u : IconVariant => OrderDual.toDual u.bitDepth) a <
        (fun u : IconVariant => OrderDual.toDual u.bitDepth) b) := by
    intro a b
    rw [decide_eq_true_iff]
    exact (OrderDual.toDual_lt_toDual).symm
  obtain ⟨hrm, hrmin⟩ := pyMinBy_spec
    (fun u : IconVariant => OrderDual.toDual u.bitDepth)
    (fun a b => decide (b.bitDepth < a.bitDepth)) hdlt ws w0
  set r := pyMinBy (fun a b => decide (b.bitDepth < a.bitDepth)) w0 ws
    with hrdef
  have hrF : r ∈ (v0 :: vs0).filter
      (fun i => i.width == best.width && i.height == best.height) := by
    rw [hfeq]
    rcases hrm with h | h
    · rw [h]; exact List.mem_cons_self _ _
    · exact List.mem_cons_of_mem _ h
  obtain ⟨hrImg, hrPred⟩ := List.mem_filter.1 hrF
  have hrw : r.width = best.width ∧ r.height = best.height := by
    simpa using hrPred
  have hscore_r : score crit r = score crit best := by
    unfold score scoreR
    rw [hrw.1, hrw.2]
  refine ⟨r, ?_, hrImg, ?_, ?_⟩
  · simp only [selectBest]
    rw [← hbdef, hfeq]
  · intro u hu
    rw [hscore_r]
    exact hbmin u (by rcases List.mem_cons.1 hu with h | h <;> simp [h])
  · intro u hu huw huh
    have huF : u ∈ (v0 :: vs0).filter
        (fun i => i.width == best.width && i.height == best.height) :=
      List.mem_filter.2 ⟨hu, by simp [huw, huh, hrw.1, hrw.2]⟩
    rw [hfeq] at huF
    have hle := hrmin u
      (by rcases List.mem_cons.1 huF with h | h <;> simp [h])
    exact OrderDual.toDual_le_toDual.1 hle

/-- C1 counterexample: with catalog `[(0,16,64,8), (1,32,32,32)]` and
criterion 64 both members have the same score (both areas are 1024),
yet the code returns the bit-depth-8 member, so the returned variant
does not have maximal bit depth among all equal-score members. -/
theorem selectBest_tie_break_counterexample :
    selectBest 64 [⟨0, 16, 64, 8⟩, ⟨1, 32, 32, 32⟩] = some ⟨0, 16, 64, 8⟩ ∧
    (⟨1, 32, 32, 32⟩ : IconVariant) ∈
      ([⟨0, 16, 64, 8⟩, ⟨1, 32, 32, 32⟩] : List IconVariant) ∧
    score 64 ⟨1, 32, 32, 32⟩ = score 64 ⟨0, 16, 64, 8⟩ ∧
    (⟨0, 16, 64, 8⟩ : IconVariant).bitDepth <
      (⟨1, 32, 32, 32⟩ : IconVariant).bitDepth := by
  refine ⟨by decide, by decide, ?_, by decide⟩
  norm_num [score, scoreR]

/-- C1 witness: the spec's own example catalog; the minimizing member
of size 32x32 and depth 32 is selected. -/
theorem selectBest_spec_w :
    ([⟨0, 32, 32, 32⟩, ⟨1, 16, 16, 8⟩, ⟨2, 32, 32, 8⟩] :
      List IconVariant) ≠ [] ∧
    (∃ v, selectBest 64 [⟨0, 32, 32, 32⟩, ⟨1, 16, 16, 8⟩, ⟨2, 32, 32, 8⟩] =
        some v ∧
      v ∈ ([⟨0, 32, 32, 32⟩, ⟨1, 16, 16, 8⟩, ⟨2, 32, 32, 8⟩] :
        List IconVariant) ∧
      (∀ u ∈ ([⟨0, 32, 32, 32⟩, ⟨1, 16, 16, 8⟩, ⟨2, 32, 32, 8⟩] :
        List IconVariant), score 64 v ≤ score 64 u) ∧
      (∀ u ∈ ([⟨0, 32, 32, 32⟩, ⟨1, 16, 16, 8⟩, ⟨2, 32, 32, 8⟩] :
        List IconVariant), u.width = v.width → u.height = v.height →
        u.bitDepth ≤ v.bitDepth)) ∧
    selectBest 64 [⟨0, 32, 32, 32⟩, ⟨1, 16, 16, 8⟩, ⟨2, 32, 32, 8⟩] =
      some ⟨0, 32, 32, 32⟩ :=
  ⟨by decide, selectBest_spec 64 _ (by decide), by decide⟩

theorem themeLoop_entries (base nm : List Char) :
    ∀ (l : List IconVariant) (p : IconVariant),
      List.Sorted themeKeyLe (p :: l) →
      ∀ e ∈ themeLoop base nm (some p) l,
        e.1 ∈ l ∧ ¬(e.1.width = p.width ∧ e.1.height = p.height) ∧
        e.2 = themeDest base e.1.width e.1.height nm ∧
        ∀ u ∈ l, u.width = e.1.width → u.height = e.1.height →
          u.bitDepth ≤ e.1.bitDepth := by
  intro l
  induction l with
  | nil =>
    intro p _ e he
    simp [themeLoop] at he
  | cons x rest ih =>
    intro p hs e he
    rw [List.sorted_cons] at hs
    obtain ⟨hp, hxs⟩ := hs
    have hpx : themeKeyLe p x := hp x (List.mem_cons_self _ _)
    have hxrest : ∀ u ∈ rest, themeKeyLe x u := (List.sorted_cons.1 hxs).1
    unfold themeLoop at he
    by_cases hemit : themeEmit (some p) x = true
    · rw [if_pos hemit] at he
      have hsize : x.width ≠ p.width ∨ x.height ≠ p.height := by
        unfold themeEmit at hemit
        simpa using hemit
      rcases List.mem_cons.1 he with rfl | he2
      · dsimp only
        refine ⟨List.mem_cons_self _ _, by omega, rfl, ?_⟩
        intro u hu huw huh
        rcases List.mem_cons.1 hu with rfl | hu2
        · exact le_refl _
        · have hxu := hxrest u hu2
          unfold themeKeyLe at hxu
          omega
      · obtain ⟨hmem, hne, hpath, hmax⟩ := ih x hxs e he2
        have hxe := hxrest e.1 hmem
        unfold themeKeyLe at hpx hxe
        refine ⟨List.mem_cons_of_mem _ hmem, by omega, hpath, ?_⟩
        intro u hu huw huh
        rcases List.mem_cons.1 hu with rfl | hu2
        · exact absurd ⟨huw.symm, huh.symm⟩ hne
        · exact hmax u hu2 huw huh
    · rw [if_neg hemit] at he
      have hsize : x.width = p.width ∧ x.height = p.height := by
        unfold themeEmit at hemit
        simpa using hemit
      obtain ⟨hmem, hne, hpath, hmax⟩ := ih x hxs e he
      refine ⟨List.mem_cons_of_mem _ hmem, by omega, hpath, ?_⟩
      intro u hu huw huh
      rcases List.mem_cons.1 hu with rfl | hu2
      · exact absurd ⟨huw.symm, huh.symm⟩ hne
      · exact hmax u hu2 huw huh

theorem themeLoop_exists (base nm : List Char) (w h : Nat) :
    ∀ (l : List IconVariant) (p : IconVariant),
      List.Sorted themeKeyLe (p :: l) →
      ¬(p.width = w ∧ p.height = h) →
      (∃ u ∈ l, u.width = w ∧ u.height = h) →
      ∃ e ∈ themeLoop base nm (some p) l, e.1.width = w ∧ e.1.height = h := by
  intro l
  induction l with
  | nil =>
    rintro p _ _ ⟨u, hu, -⟩
    exact absurd hu (List.not_mem_nil u)
  | cons x rest ih =>
    rintro p hs hp ⟨u, hu, hwh⟩
    rw [List.sorted_cons] at hs
    obtain ⟨hpall, hxs⟩ := hs
    unfold themeLoop
    by_cases hx : x.width = w ∧ x.height = h
    · have hemit : themeEmit (some p) x = true := by
        unfold themeEmit
        simp only [Bool.or_eq_true, Bool.not_eq_eq_eq_not, Bool.not_true,
          beq_eq_false_iff_ne, ne_eq]
        omega
      rw [if_pos hemit]
      exact ⟨(x, themeDest base x.width x.height nm),
        List.mem_cons_self _ _, hx⟩
    · have hurest : u ∈ rest := by
        rcases List.mem_cons.1 hu with rfl | h2
        · exact absurd hwh hx
        · exact h2
      have hrec := ih x hxs hx ⟨u, hurest, hwh⟩
      by_cases hemit : themeEmit (some p) x = true
      · rw [if_pos hemit]
        obtain ⟨e, he, hP⟩ := hrec
        exact ⟨e, List.mem_cons_of_mem _ he, hP⟩
      · rw [if_neg hemit]
        exact hrec

theorem themeLoop_uniq (base nm : List Char) :
    ∀ (l : List IconVariant) (p : IconVariant),
      List.Sorted themeKeyLe (p :: l) →
      ∀ e ∈ themeLoop base nm (some p) l,
        ∀ e2 ∈ themeLoop base nm (some p) l,
          e.1.width = e2.1.width → e.1.height = e2.1.height → e = e2 := by
  intro l
  induction l with
  | nil =>
    intro p _ e he
    simp [themeLoop] at he
  | cons x rest ih =>
    intro p hs e he e2 he2 hw hh
    have hxs : List.Sorted themeKeyLe (x :: rest) := (List.sorted_cons.1 hs).2
    unfold themeLoop at he he2
    by_cases hemit : themeEmit (some p) x = true
    · rw [if_pos hemit] at he he2
      rcases List.mem_cons.1 he with rfl | hee
      · rcases List.mem_cons.1 he2 with rfl | he2e
        · rfl
        · have := (themeLoop_entries base nm rest x hxs e2 he2e).2.1
          exact absurd ⟨hw.symm, hh.symm⟩ this
      · rcases List.mem_cons.1 he2 with rfl | he2e
        · have := (themeLoop_entries base nm rest x hxs e hee).2.1
          exact absurd ⟨hw, hh⟩ this
        · exact ih x hxs e hee e2 he2e hw hh
    · rw [if_neg hemit] at he he2
      exact ih x hxs e he e2 he2 hw hh

theorem themeLoopNone_entries (base nm : List Char) (s : List IconVariant)
    (hs : List.Sorted themeKeyLe s) :
    ∀ e ∈ themeLoop base nm none s,
      e.1 ∈ s ∧ e.2 = themeDest base e.1.width e.1.height nm ∧
      ∀ u ∈ s, u.width = e.1.width → u.height = e.1.height →
        u.bitDepth ≤ e.1.bitDepth := by
  cases s with
  | nil =>
    intro e he
    simp [themeLoop] at he
  | cons v s0 =>
    intro e he
    have hvall : ∀ u ∈ s0, themeKeyLe v u := (List.sorted_cons.1 hs).1
    have hred : themeLoop base nm none (v :: s0) =
        (v, themeDest base v.width v.height nm) ::
          themeLoop base nm (some v) s0 := rfl
    rw [hred] at he
    rcases List.mem_cons.1 he with rfl | hee
    · dsimp only
      refine ⟨List.mem_cons_self _ _, rfl, ?_⟩
      intro u hu huw huh
      rcases List.mem_cons.1 hu with rfl | hu2
      · exact le_refl _
      · have hvu := hvall u hu2
        unfold themeKeyLe at hvu
        omega
    · obtain ⟨hmem, hne, hpath, hmax⟩ := themeLoop_entries base nm s0 v hs e hee
      refine ⟨List.mem_cons_of_mem _ hmem, hpath, ?_⟩
      intro u hu huw huh
      rcases List.mem_cons.1 hu with rfl | hu2
      · exact absurd ⟨huw.symm, huh.symm⟩ hne
      · exact hmax u hu2 huw huh

theorem themeLoopNone_exists (base nm : List Char) (w h : Nat)
    (s : List IconVariant) (hs : List.Sorted themeKeyLe s)
    (hpres : ∃ u ∈ s, u.width = w ∧ u.height = h) :
    ∃ e ∈ themeLoop base nm none s, e.1.width = w ∧ e.1.height = h := by
  cases s with
  | nil =>
    obtain ⟨u, hu, -⟩ := hpres
    exact absurd hu (List.not_mem_nil u)
  | cons v s0 =>
    obtain ⟨u, hu, hwh⟩ := hpres
    have hred : themeLoop base nm none (v :: s0) =
        (v, themeDest base v.width v.height nm) ::
          themeLoop base nm (some v) s0 := rfl
    rw [hred]
    by_cases hv : v.width = w ∧ v.height = h
    · exact ⟨(v, themeDest base v.width v.height nm),
        List.mem_cons_self _ _, hv⟩
    · have hurest : u ∈ s0 := by
        rcases List.mem_cons.1 hu with rfl | h2
        · exact absurd hwh hv
        · exact h2
      obtain ⟨e, he, hP⟩ :=
        themeLoop_exists base nm w h s0 v hs hv ⟨u, hurest, hwh⟩
      exact ⟨e, List.mem_cons_of_mem _ he, hP⟩

theorem themeLoopNone_uniq (base nm : List Char) (s : List IconVariant)
    (hs : List.Sorted themeKeyLe s) :
    ∀ e ∈ themeLoop base nm none s, ∀ e2 ∈ themeLoop base nm none s,
      e.1.width = e2.1.width → e.1.height = e2.1.height → e = e2 := by
  cases s with
  | nil =>
    intro e he
    simp [themeLoop] at he
  | cons v s0 =>
    intro e he e2 he2 hw hh
    have hred : themeLoop base nm none (v :: s0) =
        (v, themeDest base v.width v.height nm) ::
          themeLoop base nm (some v) s0 := rfl
    rw [hred] at he he2
    rcases List.mem_cons.1 he with rfl | hee
    · rcases List.mem_cons.1 he2 with rfl | he2e
      · rfl
      · have := (themeLoop_entries base nm s0 v hs e2 he2e).2.1
        exact absurd ⟨hw.symm, hh.symm⟩ this
    · rcases List.mem_cons.1 he2 with rfl | he2e
      · have := (themeLoop_entries base nm s0 v hs e hee).2.1
        exact absurd ⟨hw, hh⟩ this
      · exact themeLoop_uniq base nm s0 v hs e hee e2 he2e hw hh

/-- C4: the theme-tree loop sorts by `(width, height, -bitDepth)`
ascending and emits, for each (width, height) present in the catalog,
exactly one destination file at `base/<w>x<h>/apps/<name>.png`, taken
from a catalog member of maximal bit depth for that size; variants
whose size was already processed are skipped. -/
theorem buildThemeTree_spec (base nm : List Char) (images : List IconVariant)
    (w h : Nat) (hpres : ∃ u ∈ images, u.width = w ∧ u.height = h) :
    (∃ e ∈ buildThemeTree base nm images, e.1.width = w ∧ e.1.height = h) ∧
    (∀ e ∈ buildThemeTree base nm images,
      ∀ e2 ∈ buildThemeTree base nm images,
        e.1.width = e2.1.width → e.1.height = e2.1.height → e = e2) ∧
    (∀ e ∈ buildThemeTree base nm images,
      e.1 ∈ images ∧ e.2 = themeDest base e.1.width e.1.height nm ∧
      ∀ u ∈ images, u.width = e.1.width → u.height = e.1.height →
        u.bitDepth ≤ e.1.bitDepth) := by
  have hsort : List.Sorted themeKeyLe (List.insertionSort themeKeyLe images) :=
    List.sorted_insertionSort themeKeyLe images
  have hperm : (List.insertionSort themeKeyLe images).Perm images :=
    List.perm_insertionSort themeKeyLe images
  unfold buildThemeTree
  refine ⟨?_, ?_, ?_⟩
  · obtain ⟨u, hu, hwh⟩ := hpres
    exact themeLoopNone_exists base nm w h _ hsort ⟨u, hperm.mem_iff.2 hu, hwh⟩
  · exact themeLoopNone_uniq base nm _ hsort
  · intro e he
    obtain ⟨hmem, hpath, hmax⟩ := themeLoopNone_entries base nm _ hsort e he
    exact ⟨hperm.mem_iff.1 hmem, hpath,
      fun u hu huw huh => hmax u (hperm.mem_iff.2 hu) huw huh⟩

/-- C4 witness: two 32x32 variants of depths 8 and 32 produce exactly
one file for that size, from the depth-32 variant. -/
theorem buildThemeTree_spec_w :
    (∃ u ∈ ([⟨0, 32, 32, 8⟩, ⟨1, 32, 32, 32⟩] : List IconVariant),
      u.width = 32 ∧ u.height = 32) ∧
    (∃ e ∈ buildThemeTree "/b".toList "n".toList
        [⟨0, 32, 32, 8⟩, ⟨1, 32, 32, 32⟩],
      e.1.width = 32 ∧ e.1.height = 32) ∧
    buildThemeTree "/b".toList "n".toList [⟨0, 32, 32, 8⟩, ⟨1, 32, 32, 32⟩] =
      [(⟨1, 32, 32, 32⟩, "/b/32x32/apps/n.png".toList)] :=
  ⟨by decide,
    (buildThemeTree_spec "/b".toList "n".toList
      [⟨0, 32, 32, 8⟩, ⟨1, 32, 32, 32⟩] 32 32 (by decide)).1,
    by decide⟩

end WLCreator
